import Mathlib

/-!
Shallow embedding of `src/core/embed/rust/src/ui/component/text.rs`
(the text layout engine: tokenizer, op translation, layout driver and the
line-fitting algorithm `Span::fit_horizontally`).

Modelling conventions:
* Bytes are `Nat` (the Rust code works on `&[u8]`; byte values 0..255).
* Machine integers (`i32` coordinates and widths) are `Int`; the quantities
  involved are tiny screen coordinates, far from any `i32` overflow, so no
  wrap-around modelling is needed.
* A `Font` is the external font-metrics collaborator: a per-byte width
  function plus a line height (the code only ever measures one byte at a
  time).  `Font.text_width` sums per-byte widths, matching the collaborator
  contract.
* The `LayoutSink` visitor is modelled by an explicit trace of sink events.
* The `while` loop of `TextStyle::layout_text` is modelled with an explicit
  fuel parameter (`none` = fuel exhausted); termination for sufficient fuel
  is proved separately.  In addition to the Rust return value the embedding
  exposes the loop's final state: the unprocessed remainder of the text and
  the sequence of sink callbacks.
-/

structure Color where
  v : Nat
deriving DecidableEq

structure Offset where
  x : Int
  y : Int
deriving DecidableEq

structure Point where
  x : Int
  y : Int
deriving DecidableEq

structure Rect where
  x0 : Int
  y0 : Int
  x1 : Int
  y1 : Int
deriving DecidableEq

/-- Font metrics collaborator: per-byte glyph width and line height
(`Font::text_width` on single-byte slices and `Font::line_height`). -/
structure Font where
  charWidth : Nat → Int
  lineHeight : Int

/-- Width of a byte slice: the sum of the per-byte widths (the engine always
measures single bytes; this is the natural additive model of the
collaborator's `text_width`). -/
def Font.text_width (f : Font) (s : List Nat) : Int :=
  (s.map f.charWidth).sum

/-- `LineBreaking` from the source. -/
inductive LineBreaking
  | BreakAtWhitespace
  | BreakWordsAndInsertHyphen
deriving DecidableEq

/-- `PageBreaking` from the source. -/
inductive PageBreaking
  | Cut
  | CutAndInsertEllipsis
deriving DecidableEq

/-- Result `Span` of `Span::fit_horizontally`. -/
structure Span where
  length : Nat
  skip_next_chars : Nat
  advance : Offset
  insert_hyphen_before_line_break : Bool
deriving DecidableEq

/-- The whitespace class used by `Span::fit_horizontally`
(space = 32, LF = 10, CR = 13). -/
def is_whitespace (ch : Nat) : Bool :=
  ch == 32 || ch == 10 || ch == 13

/-- The scanning loop of `Span::fit_horizontally`.  `n` is the total input
length (used by the fall-through return), `i` the index of the head of
`rest` in the full input, `line` the current tentative break span,
`span_width` the accumulated width of the scanned bytes and
`found_any_whitespace` the flag of the same name in the source. -/
def Span.fitFrom (n : Nat) (max_width : Int) (text_font hyphen_font : Font)
    (breaking : LineBreaking) :
    Nat → List Nat → Span → Int → Bool → Span
  | _, [], _, span_width, _ =>
    { length := n
      skip_next_chars := 0
      advance := ⟨span_width, 0⟩
      insert_hyphen_before_line_break := false }
  | i, ch :: rest, line, span_width, found_any_whitespace =>
    let char_width := text_font.charWidth ch
    let hyphen_width := hyphen_font.charWidth 45
    if is_whitespace ch then
      -- Break before the whitespace, without hyphen.
      let line' : Span :=
        { length := i
          skip_next_chars := 1
          advance := ⟨span_width,
            if ch == 13 then text_font.lineHeight.tdiv 2 else line.advance.y⟩
          insert_hyphen_before_line_break := false }
      if ch == 10 || ch == 13 then
        -- End of line, break immediately.
        line'
      else
        Span.fitFrom n max_width text_font hyphen_font breaking
          (i + 1) rest line' (span_width + char_width) true
    else if max_width < span_width + char_width then
      -- Return the last breakpoint.
      line
    else
      let line' : Span :=
        if span_width + char_width + hyphen_width ≤ max_width
            && (breaking == .BreakWordsAndInsertHyphen || !found_any_whitespace) then
          -- Break after this character, append hyphen.
          { length := i + 1
            skip_next_chars := 0
            advance := ⟨span_width + char_width, line.advance.y⟩
            insert_hyphen_before_line_break := true }
        else line
      Span.fitFrom n max_width text_font hyphen_font breaking
        (i + 1) rest line' (span_width + char_width) found_any_whitespace

/-- `Span::fit_horizontally` from the source. -/
def Span.fit_horizontally (text : List Nat) (max_width : Int)
    (text_font hyphen_font : Font) (breaking : LineBreaking) : Span :=
  Span.fitFrom text.length max_width text_font hyphen_font breaking
    0 text
    { length := 0
      skip_next_chars := 0
      advance := ⟨0, text_font.lineHeight⟩
      insert_hyphen_before_line_break := false }
    0 false

/-- `TextStyle` from the source.  The three font/color pairs and the two
policies; fields as in the Rust struct. -/
structure TextStyle where
  bounds : Rect
  background_color : Color
  text_color : Color
  text_font : Font
  line_breaking : LineBreaking
  hyphen_font : Font
  hyphen_color : Color
  page_breaking : PageBreaking
  ellipsis_font : Font
  ellipsis_color : Color

/-- One callback on the `LayoutSink` visitor, recorded as a trace event.
`text` carries the cursor at which the span is reported and the reported
bytes; `hyphen` and `ellipsis` carry the cursor; `oob` is `out_of_bounds`. -/
inductive Event
  | text (cursor : Point) (bytes : List Nat)
  | hyphen (cursor : Point)
  | ellipsis (cursor : Point)
  | oob
deriving DecidableEq

/-- `LayoutResult` from the source. -/
inductive LayoutResult
  | Fitting
  | OutOfBounds
deriving DecidableEq

/-- The `while` loop of `TextStyle::layout_text`, with explicit fuel
(`none` = fuel ran out).  Besides the Rust return value the embedding
returns the final cursor, the unprocessed remainder of the text (empty on
`Fitting`, the unprocessed rest on `OutOfBounds`) and the trace of sink
callbacks made during the call. -/
def TextStyle.layout_text (self : TextStyle) :
    Nat → List Nat → Point → Option (LayoutResult × Point × List Nat × List Event)
  | 0, _, _ => none
  | _ + 1, [], cursor => some (.Fitting, cursor, [], [])
  | fuel + 1, remaining_text@(_ :: _), cursor =>
    let span := Span.fit_horizontally remaining_text (self.bounds.x1 - cursor.x)
      self.text_font self.hyphen_font self.line_breaking
    -- Report the span at the cursor position.
    let reported := Event.text cursor (remaining_text.take span.length)
    -- Continue with the rest of the remaining_text.
    let rest := remaining_text.drop (span.length + span.skip_next_chars)
    -- Advance the cursor horizontally.
    let cursor1 : Point := ⟨cursor.x + span.advance.x, cursor.y⟩
    if 0 < span.advance.y then
      -- We're advancing to the next line.
      let evs1 :=
        if span.insert_hyphen_before_line_break then
          [reported, Event.hyphen cursor1]
        else [reported]
      if self.bounds.y1 < cursor1.y + span.advance.y then
        -- Append ellipsis to indicate more content is available, but only
        -- if we haven't already appended a hyphen.
        let evs2 :=
          if rest ≠ [] ∧ self.page_breaking = .CutAndInsertEllipsis
              ∧ span.insert_hyphen_before_line_break = false then
            evs1 ++ [Event.ellipsis cursor1, Event.oob]
          else evs1 ++ [Event.oob]
        some (.OutOfBounds, cursor1, rest, evs2)
      else
        -- Advance the cursor to the beginning of the next line.
        match self.layout_text fuel rest ⟨self.bounds.x0, cursor1.y + span.advance.y⟩ with
        | none => none
        | some (res, p, rem, evs) => some (res, p, rem, evs1 ++ evs)
    else
      match self.layout_text fuel rest cursor1 with
      | none => none
      | some (res, p, rem, evs) => some (res, p, rem, reported :: evs)

/-- `Op` from the source (`Op::Text`, `Op::Color`, `Op::Font`). -/
inductive Op
  | Text (bytes : List Nat)
  | SetColor (color : Color)
  | SetFont (font : Font)

/-- `TextStyle::layout_ops`: fold over the operation stream, mutating the
style's current color/font in place and delegating `Op::Text` to
`layout_text`.  The embedding also returns the final style (the Rust method
consumes `mut self`) and the trace of sink callbacks. -/
def TextStyle.layout_ops (fuel : Nat) :
    TextStyle → List Op → Point → Option (LayoutResult × TextStyle × Point × List Event)
  | self, [], cursor => some (.Fitting, self, cursor, [])
  | self, .SetColor c :: rest, cursor =>
    TextStyle.layout_ops fuel { self with text_color := c } rest cursor
  | self, .SetFont f :: rest, cursor =>
    TextStyle.layout_ops fuel { self with text_font := f } rest cursor
  | self, .Text t :: rest, cursor =>
    match self.layout_text fuel t cursor with
    | none => none
    | some (.OutOfBounds, p, _, evs) => some (.OutOfBounds, self, p, evs)
    | some (.Fitting, p, _, evs) =>
      match TextStyle.layout_ops fuel self rest p with
      | none => none
      | some (res, st, q, evs2) => some (res, st, q, evs ++ evs2)

/-- `Token` from the source. -/
inductive Token
  | Literal (bytes : List Nat)
  | Argument (bytes : List Nat)
deriving DecidableEq

/-- First position `≥ p` holding byte `b`, scanning the list `cs` whose head
sits at position `p` (the search loops inside `Tokenizer::next`). -/
def scanFor (b : Nat) : List Nat → Nat → Option Nat
  | [], _ => none
  | c :: cs, p => if c = b then some p else scanFor b cs (p + 1)

/-- Tokenizer state: the input buffer and the current scan position (the
Rust iterator's `Peekable<Enumerate<...>>` is exactly a position). -/
structure Tokenizer where
  input : List Nat
  pos : Nat
deriving DecidableEq

/-- `Tokenizer::new`. -/
def Tokenizer.new (format : List Nat) : Tokenizer := ⟨format, 0⟩

/-- `Tokenizer::next`.  At `{` (123): scan for the closing `}` (125) and
yield the bytes strictly between as an `Argument`, or end the stream if no
`}` follows.  Otherwise: yield a `Literal` up to (excluding) the next `{`,
or to the end of input. -/
def Tokenizer.next (t : Tokenizer) : Option (Token × Tokenizer) :=
  match t.input.drop t.pos with
  | [] => none
  | c :: rest =>
    if c = 123 then
      match scanFor 125 rest (t.pos + 1) with
      | some close =>
        some (.Argument ((t.input.drop (t.pos + 1)).take (close - (t.pos + 1))),
          ⟨t.input, close + 1⟩)
      | none => none
    else
      match scanFor 123 rest (t.pos + 1) with
      | some opn =>
        some (.Literal ((t.input.drop t.pos).take (opn - t.pos)), ⟨t.input, opn⟩)
      | none => some (.Literal (t.input.drop t.pos), ⟨t.input, t.input.length⟩)

/-- A concrete font for witnesses: every byte one unit wide, line height 16. -/
def unitFont : Font := ⟨fun _ => 1, 16⟩

/-- A concrete style for counterexamples and witnesses: unit-width font,
line height 16, `CutAndInsertEllipsis` page breaking, bounds 100 wide and
10 tall (one over-tall line overflows). -/
def sampleStyle : TextStyle :=
  { bounds := ⟨0, 0, 100, 10⟩
    background_color := ⟨0⟩
    text_color := ⟨1⟩
    text_font := unitFont
    line_breaking := .BreakAtWhitespace
    hyphen_font := unitFont
    hyphen_color := ⟨2⟩
    page_breaking := .CutAndInsertEllipsis
    ellipsis_font := unitFont
    ellipsis_color := ⟨3⟩ }

/-- Like `sampleStyle` but 3 units wide and 20 tall: fits one 16-high line
and overflows on the second. -/
def narrowStyle : TextStyle :=
  { sampleStyle with bounds := ⟨0, 0, 3, 20⟩ }

/-- Full specification of a succeeding `scanFor`: the result is the first
position at or after `p` carrying byte `b`, where `cs` starts at `p`. -/
theorem scanFor_some_spec {b : Nat} {cs : List Nat} {p q : Nat}
    (h : scanFor b cs p = some q) :
    p ≤ q ∧ q - p < cs.length ∧ cs[q - p]? = some b ∧
      ∀ r, r < q - p → cs[r]? ≠ some b := by
  induction cs generalizing p with
  | nil => simp [scanFor] at h
  | cons c cs ih =>
    rw [scanFor] at h
    by_cases hc : c = b
    · subst hc
      rw [if_pos rfl] at h
      injection h with h
      subst h
      refine ⟨Nat.le_refl _, by simp, by simp, ?_⟩
      intro r hr
      omega
    · rw [if_neg hc] at h
      obtain ⟨h1, h2, h3, h4⟩ := ih h
      refine ⟨by omega, by simp; omega, ?_, ?_⟩
      · have : q - p = (q - (p + 1)) + 1 := by omega
        rw [this, List.getElem?_cons_succ]
        exact h3
      · intro r hr
        match r with
        | 0 => simpa using hc
        | r + 1 =>
          rw [List.getElem?_cons_succ]
          exact h4 r (by omega)

/-- A failing `scanFor` means the byte does not occur in the scanned list. -/
theorem scanFor_none {b : Nat} {cs : List Nat} {p : Nat}
    (h : scanFor b cs p = none) : b ∉ cs := by
  induction cs generalizing p with
  | nil => simp
  | cons c cs ih =>
    rw [scanFor] at h
    by_cases hc : c = b
    · simp [hc] at h
    · rw [if_neg hc] at h
      simp only [List.mem_cons]
      rintro (rfl | hb)
      · exact hc rfl
      · exact ih h hb

/-- A successful `scanFor` exists whenever the byte occurs. -/
theorem scanFor_isSome_of_mem {b : Nat} {cs : List Nat} {p : Nat}
    (hmem : b ∈ cs) : (scanFor b cs p).isSome = true := by
  cases hs : scanFor b cs p with
  | none => exact absurd hmem (scanFor_none hs)
  | some q => rfl

/-- `Tokenizer::next` makes strict progress: it keeps the input buffer and
moves the position forward, staying within the buffer. -/
theorem Tokenizer.next_progress {t : Tokenizer} {tok : Token} {t' : Tokenizer}
    (h : t.next = some (tok, t')) :
    t'.input = t.input ∧ t.pos < t'.pos ∧ t'.pos ≤ t.input.length := by
  unfold Tokenizer.next at h
  split at h
  · exact absurd h (by simp)
  · rename_i c rest hd
    have hlen : rest.length = t.input.length - t.pos - 1 := by
      have h' := congrArg List.length hd
      simp only [List.length_drop, List.length_cons] at h'
      omega
    have hpos : t.pos < t.input.length := by
      by_contra hge
      have hnil : t.input.drop t.pos = [] := List.drop_eq_nil_of_le (by omega)
      rw [hnil] at hd
      exact absurd hd (by simp)
    split at h
    · -- argument branch: c = 123
      split at h
      · rename_i close hs
        obtain ⟨h1, h2, _, _⟩ := scanFor_some_spec hs
        simp only [Option.some.injEq, Prod.mk.injEq] at h
        obtain ⟨_, rfl⟩ := h
        exact ⟨rfl, by simp; omega, by simp; omega⟩
      · exact absurd h (by simp)
    · -- literal branch
      split at h
      · rename_i opn hs
        obtain ⟨h1, h2, _, _⟩ := scanFor_some_spec hs
        simp only [Option.some.injEq, Prod.mk.injEq] at h
        obtain ⟨_, rfl⟩ := h
        exact ⟨rfl, by simp; omega, by simp; omega⟩
      · simp only [Option.some.injEq, Prod.mk.injEq] at h
        obtain ⟨_, rfl⟩ := h
        exact ⟨rfl, by simp; omega, by simp⟩

/-- Materialize the lazy token stream: repeatedly call `Tokenizer::next`
until it ends.  Fueled for computability; since `next` advances the
position by at least one, fuel `input.length + 1` is always sufficient. -/
def Tokenizer.tokensFuel : Nat → Tokenizer → List Token
  | 0, _ => []
  | fuel + 1, t =>
    match t.next with
    | none => []
    | some (tok, t') => tok :: Tokenizer.tokensFuel fuel t'

/-- Tokenizing a whole format string. -/
def tokenize (format : List Nat) : List Token :=
  Tokenizer.tokensFuel (format.length + 1) (Tokenizer.new format)

/-- Inverse of tokenization for one token: a `Literal` payload stands for
itself, an `Argument` payload is wrapped back into `{`/`}`. -/
def renderToken : Token → List Nat
  | .Literal s => s
  | .Argument s => 123 :: (s ++ [125])

/-- Concatenation of the rendered tokens, in stream order. -/
def renderTokens (ts : List Token) : List Nat :=
  (ts.map renderToken).flatten

/-- Whether a sink event is the ellipsis callback. -/
def Event.isEllipsis : Event → Bool
  | .ellipsis _ => true
  | _ => false

/-- Whether a sink event is the hyphen callback. -/
def Event.isHyphen : Event → Bool
  | .hyphen _ => true
  | _ => false

/-- The trace ends with a hyphen callback immediately followed by the
overflow callback (the overflow-triggering line ended in a hyphen-flagged
break). -/
def endsHyphenOob (evs : List Event) : Bool :=
  match evs.reverse with
  | .oob :: .hyphen _ :: _ => true
  | _ => false

/-- The ellipsis callback appears exactly once, immediately before a final
overflow callback. -/
def ellipsisOnceBeforeOob (evs : List Event) : Bool :=
  match evs.reverse with
  | .oob :: .ellipsis _ :: rest => rest.all (fun e => !e.isEllipsis)
  | _ => false

/-! ### Invariant lemmas about the line-fitter scan -/

/-- The consumed prefix (`length + skip_next_chars`) of the returned span
never exceeds the input length (`n`), provided the carried breakpoint obeys
the same bound at the current scan position. -/
theorem fitFrom_progress_le (n : Nat) (mw : Int) (tf hf : Font) (br : LineBreaking)
    (rest : List Nat) :
    ∀ (i : Nat) (line : Span) (sw : Int) (fw : Bool),
      line.length + line.skip_next_chars ≤ i → i + rest.length = n →
      (Span.fitFrom n mw tf hf br i rest line sw fw).length +
        (Span.fitFrom n mw tf hf br i rest line sw fw).skip_next_chars ≤ n := by
  induction rest with
  | nil =>
    intro i line sw fw h1 h2
    simp [Span.fitFrom]
  | cons ch rest ih =>
    intro i line sw fw h1 h2
    rw [Span.fitFrom]
    simp only [List.length_cons] at h2
    by_cases hws : is_whitespace ch = true
    · rw [if_pos hws]
      by_cases hlf : (ch == 10 || ch == 13) = true
      · rw [if_pos hlf]
        simp only
        omega
      · rw [if_neg hlf]
        exact ih (i + 1) _ _ _ (by simp) (by omega)
    · rw [if_neg hws]
      by_cases hex : mw < sw + tf.charWidth ch
      · rw [if_pos hex]
        omega
      · rw [if_neg hex]
        by_cases hbp : (sw + tf.charWidth ch + hf.charWidth 45 ≤ mw
            && (br == .BreakWordsAndInsertHyphen || !fw)) = true
        · rw [if_pos hbp]
          exact ih (i + 1) _ _ _ (by simp) (by omega)
        · rw [if_neg hbp]
          exact ih (i + 1) _ _ _ (by omega) (by omega)

/-- Once the carried breakpoint makes progress (consumes at least one
byte), every returned span does. -/
theorem fitFrom_progress_pos (n : Nat) (mw : Int) (tf hf : Font) (br : LineBreaking)
    (rest : List Nat) :
    ∀ (i : Nat) (line : Span) (sw : Int) (fw : Bool),
      1 ≤ line.length + line.skip_next_chars → 1 ≤ n →
      1 ≤ (Span.fitFrom n mw tf hf br i rest line sw fw).length +
        (Span.fitFrom n mw tf hf br i rest line sw fw).skip_next_chars := by
  induction rest with
  | nil =>
    intro i line sw fw h1 h2
    simp [Span.fitFrom]
    omega
  | cons ch rest ih =>
    intro i line sw fw h1 h2
    rw [Span.fitFrom]
    by_cases hws : is_whitespace ch = true
    · rw [if_pos hws]
      by_cases hlf : (ch == 10 || ch == 13) = true
      · rw [if_pos hlf]
        simp only
        omega
      · rw [if_neg hlf]
        exact ih (i + 1) _ _ _ (by simp) h2
    · rw [if_neg hws]
      by_cases hex : mw < sw + tf.charWidth ch
      · rw [if_pos hex]
        omega
      · rw [if_neg hex]
        by_cases hbp : (sw + tf.charWidth ch + hf.charWidth 45 ≤ mw
            && (br == .BreakWordsAndInsertHyphen || !fw)) = true
        · rw [if_pos hbp]
          exact ih (i + 1) _ _ _ (by simp) h2
        · rw [if_neg hbp]
          exact ih (i + 1) _ _ _ h1 h2

/-- Negation form of `fitFrom_progress_pos`, with implicit arguments so it
can be applied against a hypothesis by unification. -/
theorem fitFrom_progress_pos' {n : Nat} {mw : Int} {tf hf : Font} {br : LineBreaking}
    {rest : List Nat} {i : Nat} {line : Span} {sw : Int} {fw : Bool}
    (h1 : 1 ≤ line.length + line.skip_next_chars) (h2 : 1 ≤ n) :
    ¬((Span.fitFrom n mw tf hf br i rest line sw fw).length = 0 ∧
      (Span.fitFrom n mw tf hf br i rest line sw fw).skip_next_chars = 0) := by
  intro hz
  have := fitFrom_progress_pos n mw tf hf br rest i line sw fw h1 h2
  omega

/-- Shape of the vertical advance of any returned span: either the whole
rest fitted (`advance.y = 0`, length `n`, no skip), or a break with the
full line height, or a CR half-line break with `skip_next_chars = 1`;
assuming the carried breakpoint holds the full line height (which the
initial breakpoint does, and which the scan preserves). -/
theorem fitFrom_advance_shape (n : Nat) (mw : Int) (tf hf : Font) (br : LineBreaking)
    (rest : List Nat) :
    ∀ (i : Nat) (line : Span) (sw : Int) (fw : Bool) (r : Span),
      line.advance.y = tf.lineHeight →
      r = Span.fitFrom n mw tf hf br i rest line sw fw →
      ((r.advance.y = 0 ∧ r.length = n ∧ r.skip_next_chars = 0) ∨
        r.advance.y = tf.lineHeight ∨
        (r.advance.y = tf.lineHeight.tdiv 2 ∧ r.skip_next_chars = 1)) := by
  induction rest with
  | nil =>
    intro i line sw fw r hy hr
    subst hr
    simp [Span.fitFrom]
  | cons ch rest ih =>
    intro i line sw fw r hy hr
    rw [Span.fitFrom] at hr
    by_cases hws : is_whitespace ch = true
    · rw [if_pos hws] at hr
      by_cases hlf : (ch == 10 || ch == 13) = true
      · rw [if_pos hlf] at hr
        by_cases hcr : (ch == 13) = true
        · right; right
          simp [hr, hcr]
        · right; left
          simp [hr, hcr, hy]
      · rw [if_neg hlf] at hr
        refine ih (i + 1) _ _ _ _ ?_ hr
        have hcr : (ch == 13) = false := by
          cases h13 : ch == 13
          · rfl
          · exfalso
            apply hlf
            simp [h13]
        simp [hcr, hy]
    · rw [if_neg hws] at hr
      by_cases hex : mw < sw + tf.charWidth ch
      · rw [if_pos hex] at hr
        right; left
        rw [hr]
        exact hy
      · rw [if_neg hex] at hr
        by_cases hbp : (sw + tf.charWidth ch + hf.charWidth 45 ≤ mw
            && (br == .BreakWordsAndInsertHyphen || !fw)) = true
        · rw [if_pos hbp] at hr
          exact ih (i + 1) _ _ _ _ (by simp [hy]) hr
        · rw [if_neg hbp] at hr
          exact ih (i + 1) _ _ _ _ hy hr

/-! ### C1 -/

/-- C1 (amended): for every input slice, width budget, fonts and breaking
policy, the span returned by `Span::fit_horizontally` satisfies
`fitted_length + skip_count ≤ input length`; and a zero-progress span
(`fitted_length = 0` and `skip_next_chars = 0`) is returned only when the
text is empty, or its first byte is a visible (non-whitespace) character
that does not fit the width budget either alone or together with the
hyphen glyph. -/
theorem fit_horizontally_progress_bound (text : List Nat) (mw : Int) (tf hf : Font)
    (br : LineBreaking) :
    (Span.fit_horizontally text mw tf hf br).length +
        (Span.fit_horizontally text mw tf hf br).skip_next_chars ≤ text.length ∧
      ((Span.fit_horizontally text mw tf hf br).length = 0 ∧
          (Span.fit_horizontally text mw tf hf br).skip_next_chars = 0 →
        text = [] ∨ ∃ c rest, text = c :: rest ∧ is_whitespace c = false ∧
          (mw < tf.charWidth c ∨ mw < tf.charWidth c + hf.charWidth 45)) := by
  constructor
  · exact fitFrom_progress_le _ _ _ _ _ _ 0 _ 0 false (by simp) (by simp)
  · intro hzero
    cases text with
    | nil => exact Or.inl rfl
    | cons c rest =>
      right
      unfold Span.fit_horizontally at hzero
      rw [Span.fitFrom] at hzero
      by_cases hws : is_whitespace c = true
      · exfalso
        rw [if_pos hws] at hzero
        by_cases hlf : (c == 10 || c == 13) = true
        · rw [if_pos hlf] at hzero
          simp at hzero
        · rw [if_neg hlf] at hzero
          exact absurd hzero (fitFrom_progress_pos' (by simp) (by simp))
      · rw [if_neg hws] at hzero
        by_cases hex : mw < 0 + tf.charWidth c
        · exact ⟨c, rest, rfl, by simpa using hws, Or.inl (by omega)⟩
        · refine ⟨c, rest, rfl, by simpa using hws, Or.inr ?_⟩
          rw [if_neg hex] at hzero
          by_contra hno
          have hbp : (0 + tf.charWidth c + hf.charWidth 45 ≤ mw
              && (br == LineBreaking.BreakWordsAndInsertHyphen || !false)) = true := by
            simp only [Bool.not_false, Bool.or_true, Bool.and_true, decide_eq_true_eq]
            omega
          rw [if_pos hbp] at hzero
          exact absurd hzero (fitFrom_progress_pos' (by simp) (by simp))

/-- C1 counterexample to the claim as stated: with a one-unit-wide font and
a generous budget of 100, fitting the text `"\na"` returns
`fitted_length = 0` even though every character of the text fits the
width budget (so "`fitted_length == 0` only when no character at all fits"
is false; the LF forces a break before any visible character). -/
theorem fit_horizontally_zero_length_cex :
    (Span.fit_horizontally [10, 97] 100 unitFont unitFont .BreakAtWhitespace).length = 0 ∧
      ∀ c ∈ [10, 97], unitFont.charWidth c ≤ 100 := by decide

/-! ### C2 -/

theorem Font.text_width_nil (f : Font) : f.text_width [] = 0 := rfl

theorem Font.text_width_cons (f : Font) (c : Nat) (s : List Nat) :
    f.text_width (c :: s) = f.charWidth c + f.text_width s := by
  simp [Font.text_width]

/-- If position `k` of the remaining input holds a line separator (LF or
CR) and the scan reaches it (no earlier separator, and every earlier
visible character still fits the budget), the scan returns immediately at
`k`: break before the separator, skip one input byte, horizontal advance
equal to the accumulated width, vertical advance the full line height for
LF and half of it (truncated) for CR. -/
theorem fitFrom_sep (n : Nat) (mw : Int) (tf hf : Font) (br : LineBreaking)
    (rest : List Nat) :
    ∀ (i : Nat) (line : Span) (sw : Int) (fw : Bool) (k : Nat),
      line.advance.y = tf.lineHeight →
      k < rest.length →
      (rest.getD k 0 = 10 ∨ rest.getD k 0 = 13) →
      (∀ j, j < k → rest.getD j 0 ≠ 10 ∧ rest.getD j 0 ≠ 13 ∧
        (is_whitespace (rest.getD j 0) = false →
          sw + tf.text_width (rest.take j) + tf.charWidth (rest.getD j 0) ≤ mw)) →
      Span.fitFrom n mw tf hf br i rest line sw fw =
        ⟨i + k, 1, ⟨sw + tf.text_width (rest.take k),
          if rest.getD k 0 = 13 then tf.lineHeight.tdiv 2 else tf.lineHeight⟩,
          false⟩ := by
  induction rest with
  | nil =>
    intro i line sw fw k hy hk hsep hreach
    simp at hk
  | cons ch rest ih =>
    intro i line sw fw k hy hk hsep hreach
    match k with
    | 0 =>
      simp only [List.getD_cons_zero] at hsep
      rcases hsep with rfl | rfl
      · rw [Span.fitFrom]
        simp [is_whitespace, hy, Font.text_width]
      · rw [Span.fitFrom]
        simp [is_whitespace, Font.text_width]
    | k + 1 =>
      have h0 := hreach 0 (Nat.succ_pos _)
      simp only [List.getD_cons_zero, List.take_zero, Font.text_width_nil] at h0
      obtain ⟨h10, h13, hfit⟩ := h0
      have hc13 : (ch == 13) = false := by simp [h13]
      have hlf : (ch == 10 || ch == 13) = false := by simp [h10, h13]
      have hstep : ∀ (line' : Span), line'.advance.y = tf.lineHeight →
          Span.fitFrom n mw tf hf br (i + 1) rest line' (sw + tf.charWidth ch)
              (true) = ⟨i + (k + 1), 1,
            ⟨sw + tf.text_width ((ch :: rest).take (k + 1)),
              if (ch :: rest).getD (k + 1) 0 = 13 then tf.lineHeight.tdiv 2
                else tf.lineHeight⟩, false⟩ ∧
          Span.fitFrom n mw tf hf br (i + 1) rest line' (sw + tf.charWidth ch)
              (fw) = ⟨i + (k + 1), 1,
            ⟨sw + tf.text_width ((ch :: rest).take (k + 1)),
              if (ch :: rest).getD (k + 1) 0 = 13 then tf.lineHeight.tdiv 2
                else tf.lineHeight⟩, false⟩ := by
        intro line' hy'
        have hk' : k < rest.length := by simpa using hk
        have hsep' : rest.getD k 0 = 10 ∨ rest.getD k 0 = 13 := by
          simpa only [List.getD_cons_succ] using hsep
        have hreach' : ∀ j, j < k → rest.getD j 0 ≠ 10 ∧ rest.getD j 0 ≠ 13 ∧
            (is_whitespace (rest.getD j 0) = false →
              sw + tf.charWidth ch + tf.text_width (rest.take j) +
                tf.charWidth (rest.getD j 0) ≤ mw) := by
          intro j hj
          have := hreach (j + 1) (by omega)
          simp only [List.getD_cons_succ, List.take_succ_cons,
            Font.text_width_cons] at this
          refine ⟨this.1, this.2.1, fun hvis => ?_⟩
          have := this.2.2 hvis
          omega
        constructor
        · rw [ih (i + 1) line' (sw + tf.charWidth ch) true k hy' hk' hsep' hreach']
          simp only [List.getD_cons_succ, List.take_succ_cons, Font.text_width_cons,
            Span.mk.injEq, Offset.mk.injEq]
          and_intros <;> first | rfl | omega | ring
        · rw [ih (i + 1) line' (sw + tf.charWidth ch) fw k hy' hk' hsep' hreach']
          simp only [List.getD_cons_succ, List.take_succ_cons, Font.text_width_cons,
            Span.mk.injEq, Offset.mk.injEq]
          and_intros <;> first | rfl | omega | ring
      rw [Span.fitFrom]
      by_cases hws : is_whitespace ch = true
      · rw [if_pos hws, if_neg (by rw [hlf]; exact Bool.false_ne_true)]
        exact (hstep _ (by simp [hc13, hy])).1
      · rw [if_neg hws]
        have hnex : ¬(mw < sw + tf.charWidth ch) := by
          have := hfit (by simpa using hws)
          omega
        rw [if_neg hnex]
        by_cases hbp : (sw + tf.charWidth ch + hf.charWidth 45 ≤ mw
            && (br == LineBreaking.BreakWordsAndInsertHyphen || !fw)) = true
        · rw [if_pos hbp]
          exact (hstep _ (by simp [hy])).2
        · rw [if_neg hbp]
          exact (hstep _ hy).2

/-- C2: a literal LF byte (10) that the forward scan reaches (no earlier
line separator, and every earlier visible character fits the budget)
produces an immediate span break at that position with `skip_next_chars =
1` and `advance.y = line_height()`, regardless of the remaining width
budget; a CR byte (13) likewise breaks immediately but with `advance.y =
line_height() / 2` (truncating division, as in the source). -/
theorem fit_horizontally_line_sep (text : List Nat) (mw : Int) (tf hf : Font)
    (br : LineBreaking) (k : Nat)
    (hk : k < text.length)
    (hsep : text.getD k 0 = 10 ∨ text.getD k 0 = 13)
    (hreach : ∀ j, j < k → text.getD j 0 ≠ 10 ∧ text.getD j 0 ≠ 13 ∧
      (is_whitespace (text.getD j 0) = false →
        tf.text_width (text.take j) + tf.charWidth (text.getD j 0) ≤ mw)) :
    Span.fit_horizontally text mw tf hf br =
      ⟨k, 1, ⟨tf.text_width (text.take k),
        if text.getD k 0 = 13 then tf.lineHeight.tdiv 2 else tf.lineHeight⟩,
        false⟩ := by
  have := fitFrom_sep text.length mw tf hf br text 0
    ⟨0, 0, ⟨0, tf.lineHeight⟩, false⟩ 0 false k rfl hk hsep
    (by
      intro j hj
      obtain ⟨h1, h2, h3⟩ := hreach j hj
      exact ⟨h1, h2, fun hvis => by have := h3 hvis; omega⟩)
  rw [Span.fit_horizontally, this]
  simp

/-- C2 witness: an LF after a single fitting character breaks there. -/
theorem fit_horizontally_line_sep_witness :
    Span.fit_horizontally [97, 10] 100 unitFont unitFont .BreakAtWhitespace
      = ⟨1, 1, ⟨1, 16⟩, false⟩ := by
  have h := fit_horizontally_line_sep [97, 10] 100 unitFont unitFont
    .BreakAtWhitespace 1 (by decide) (by decide)
    (by decide)
  rw [h]
  decide

/-! ### C3 -/

theorem Font.text_width_nonneg (f : Font) (s : List Nat)
    (h : ∀ c ∈ s, 0 ≤ f.charWidth c) : 0 ≤ f.text_width s := by
  unfold Font.text_width
  apply List.sum_nonneg
  intro x hx
  obtain ⟨c, hc, rfl⟩ := List.mem_map.1 hx
  exact h c hc

/-- If the remaining input contains no hard line separator, its per-byte
widths are nonnegative and its total width still fits the budget on top of
the accumulated width, the scan falls through to the end and returns the
whole-input span with a purely horizontal advance. -/
theorem fitFrom_all_fit (n : Nat) (mw : Int) (tf hf : Font) (br : LineBreaking)
    (rest : List Nat) :
    ∀ (i : Nat) (line : Span) (sw : Int) (fw : Bool),
      (∀ c ∈ rest, c ≠ 10 ∧ c ≠ 13) →
      (∀ c ∈ rest, 0 ≤ tf.charWidth c) →
      sw + tf.text_width rest ≤ mw →
      Span.fitFrom n mw tf hf br i rest line sw fw =
        ⟨n, 0, ⟨sw + tf.text_width rest, 0⟩, false⟩ := by
  induction rest with
  | nil =>
    intro i line sw fw hno hw hfit
    simp [Span.fitFrom, Font.text_width]
  | cons ch rest ih =>
    intro i line sw fw hno hw hfit
    have h10 : ch ≠ 10 := (hno ch (by simp)).1
    have h13 : ch ≠ 13 := (hno ch (by simp)).2
    have hw0 : 0 ≤ tf.charWidth ch := hw ch (by simp)
    have hwr : 0 ≤ tf.text_width rest :=
      Font.text_width_nonneg tf rest (fun c hc => hw c (by simp [hc]))
    rw [Font.text_width_cons] at hfit
    have hno' : ∀ c ∈ rest, c ≠ 10 ∧ c ≠ 13 := fun c hc => hno c (by simp [hc])
    have hw' : ∀ c ∈ rest, 0 ≤ tf.charWidth c := fun c hc => hw c (by simp [hc])
    have htail : sw + tf.charWidth ch + tf.text_width rest ≤ mw := by omega
    have hgoal : ∀ (line' : Span) (fw' : Bool),
        Span.fitFrom n mw tf hf br (i + 1) rest line' (sw + tf.charWidth ch) fw' =
          ⟨n, 0, ⟨sw + tf.text_width (ch :: rest), 0⟩, false⟩ := by
      intro line' fw'
      rw [ih (i + 1) line' (sw + tf.charWidth ch) fw' hno' hw' htail]
      rw [Font.text_width_cons]
      simp only [Span.mk.injEq, Offset.mk.injEq]
      and_intros <;> first | rfl | ring
    rw [Span.fitFrom]
    by_cases hws : is_whitespace ch = true
    · rw [if_pos hws, if_neg (by simp [h10, h13] : ¬((ch == 10 || ch == 13) = true))]
      exact hgoal _ _
    · rw [if_neg hws]
      have hnex : ¬(mw < sw + tf.charWidth ch) := by omega
      rw [if_neg hnex]
      by_cases hbp : (sw + tf.charWidth ch + hf.charWidth 45 ≤ mw
          && (br == LineBreaking.BreakWordsAndInsertHyphen || !fw)) = true
      · rw [if_pos hbp]
        exact hgoal _ _
      · rw [if_neg hbp]
        exact hgoal _ _

/-- C3 (amended): for every text containing no hard line separator (LF or
CR) whose per-byte widths are nonnegative and whose total rendered width is
at most `max_width`, `Span::fit_horizontally` returns the whole-input span:
`fitted_length = text.length`, `skip_next_chars = 0`, a purely horizontal
advance (`advance.y = 0`, `advance.x` the total width) and no hyphen. -/
theorem fit_horizontally_whole_text (text : List Nat) (mw : Int) (tf hf : Font)
    (br : LineBreaking)
    (hno : ∀ c ∈ text, c ≠ 10 ∧ c ≠ 13)
    (hw : ∀ c ∈ text, 0 ≤ tf.charWidth c)
    (hfit : tf.text_width text ≤ mw) :
    Span.fit_horizontally text mw tf hf br =
      ⟨text.length, 0, ⟨tf.text_width text, 0⟩, false⟩ := by
  have h := fitFrom_all_fit text.length mw tf hf br text 0
    ⟨0, 0, ⟨0, tf.lineHeight⟩, false⟩ 0 false hno hw (by omega)
  rw [Span.fit_horizontally, h]
  simp

/-- C3 witness: a two-character text of total width 2 in a budget of 100
fits whole. -/
theorem fit_horizontally_whole_text_witness :
    Span.fit_horizontally [97, 98] 100 unitFont unitFont .BreakAtWhitespace
      = ⟨2, 0, ⟨2, 0⟩, false⟩ := by
  have h := fit_horizontally_whole_text [97, 98] 100 unitFont unitFont
    .BreakAtWhitespace (by decide) (by decide) (by decide)
  rw [h]
  decide

/-- C3 counterexample to the claim as stated: the text `"\n"` has total
rendered width 1 ≤ 100, yet `fit` does not return a span covering the whole
text with `advance.y = 0`: the LF forces a break, `fitted_length = 0` and
`advance.y = 16` (the line height). -/
theorem fit_horizontally_whole_text_cex :
    unitFont.text_width [10] ≤ 100 ∧
      (Span.fit_horizontally [10] 100 unitFont unitFont .BreakAtWhitespace).length = 0 ∧
      (Span.fit_horizontally [10] 100 unitFont unitFont .BreakAtWhitespace).advance.y
        = 16 := by decide

/-! ### C4 -/

/-- Master lemma for mid-word hyphenation under
`BreakWordsAndInsertHyphen`: on whitespace-free input with nonnegative
widths whose total overflows the budget, the scan's result has no skip, its
length covers exactly the positions whose accumulated width plus character
plus hyphen still fits, the hyphen flag is set as soon as one such position
exists, and otherwise the carried breakpoint is returned unchanged. -/
theorem fitFrom_hyphen_word (n : Nat) (mw : Int) (tf hf : Font) (rest : List Nat) :
    ∀ (i : Nat) (line : Span) (sw : Int) (fw : Bool) (r : Span),
      (∀ c ∈ rest, is_whitespace c = false) →
      (∀ c ∈ rest, 0 ≤ tf.charWidth c) →
      0 ≤ hf.charWidth 45 →
      mw < sw + tf.text_width rest →
      line.skip_next_chars = 0 →
      line.length ≤ i →
      r = Span.fitFrom n mw tf hf .BreakWordsAndInsertHyphen i rest line sw fw →
      (r.skip_next_chars = 0 ∧
        (∀ j, j < rest.length →
          (sw + tf.text_width (rest.take j) + tf.charWidth (rest.getD j 0)
              + hf.charWidth 45 ≤ mw ↔ i + j < r.length)) ∧
        ((∃ j, j < rest.length ∧ sw + tf.text_width (rest.take j) +
            tf.charWidth (rest.getD j 0) + hf.charWidth 45 ≤ mw) →
          r.insert_hyphen_before_line_break = true) ∧
        (¬(∃ j, j < rest.length ∧ sw + tf.text_width (rest.take j) +
            tf.charWidth (rest.getD j 0) + hf.charWidth 45 ≤ mw) →
          r = line ∨ rest = [])) := by
  induction rest with
  | nil =>
    intro i line sw fw r hno hw hh hwide hskip hlen hr
    rw [Font.text_width_nil] at hwide
    subst hr
    rw [Span.fitFrom]
    refine ⟨rfl, by simp, by simp, fun _ => Or.inr rfl⟩
  | cons ch rest ih =>
    intro i line sw fw r hno hw hh hwide hskip hlen hr
    have hch : is_whitespace ch = false := hno ch (by simp)
    have hw0 : 0 ≤ tf.charWidth ch := hw ch (by simp)
    have hno' : ∀ c ∈ rest, is_whitespace c = false := fun c hc => hno c (by simp [hc])
    have hw' : ∀ c ∈ rest, 0 ≤ tf.charWidth c := fun c hc => hw c (by simp [hc])
    have hwj : ∀ j, j < rest.length → 0 ≤ tf.charWidth (rest.getD j 0) := by
      intro j hj
      rw [List.getD_eq_getElem rest 0 hj]
      exact hw' _ (List.getElem_mem hj)
    have htwj : ∀ j, 0 ≤ tf.text_width (rest.take j) := fun j =>
      Font.text_width_nonneg _ _ (fun c hc => hw' c (List.take_subset _ _ hc))
    rw [Font.text_width_cons] at hwide
    rw [Span.fitFrom, if_neg (by simp [hch])] at hr
    by_cases hex : mw < sw + tf.charWidth ch
    · rw [if_pos hex] at hr
      subst hr
      have hnofit : ∀ j, j < (ch :: rest).length →
          ¬(sw + tf.text_width ((ch :: rest).take j) +
            tf.charWidth ((ch :: rest).getD j 0) + hf.charWidth 45 ≤ mw) := by
        intro j hj
        match j with
        | 0 =>
          simp only [List.take_zero, Font.text_width_nil, List.getD_cons_zero]
          omega
        | j + 1 =>
          simp only [List.take_succ_cons, Font.text_width_cons, List.getD_cons_succ]
          have h1 := htwj j
          have h2 := hwj j (by simpa using hj)
          omega
      refine ⟨hskip, ?_, ?_, fun _ => Or.inl rfl⟩
      · intro j hj
        constructor
        · intro hfit
          exact absurd hfit (hnofit j hj)
        · intro hlt
          exfalso
          omega
      · rintro ⟨j, hj, hfit⟩
        exact absurd hfit (hnofit j hj)
    · rw [if_neg hex] at hr
      have hrest_ne : ¬(rest = []) := by
        intro h0
        subst h0
        rw [Font.text_width_nil] at hwide
        omega
      have hwide' : mw < sw + tf.charWidth ch + tf.text_width rest := by omega
      have ht : ∀ j, (sw + tf.text_width (List.take (j + 1) (ch :: rest)) +
          tf.charWidth ((ch :: rest).getD (j + 1) 0) + hf.charWidth 45 ≤ mw) ↔
          (sw + tf.charWidth ch + tf.text_width (List.take j rest) +
            tf.charWidth (rest.getD j 0) + hf.charWidth 45 ≤ mw) := by
        intro j
        simp only [List.take_succ_cons, Font.text_width_cons, List.getD_cons_succ]
        constructor <;> intro <;> omega
      by_cases hfit0 : sw + tf.charWidth ch + hf.charWidth 45 ≤ mw
      · -- the tentative breakpoint is replaced by a hyphen break after `ch`
        rw [if_pos (by simp [hfit0] :
          (sw + tf.charWidth ch + hf.charWidth 45 ≤ mw
            && (LineBreaking.BreakWordsAndInsertHyphen ==
                LineBreaking.BreakWordsAndInsertHyphen || !fw)) = true)] at hr
        obtain ⟨IH1, IH2, IH3, IH4⟩ := ih (i + 1)
          ⟨i + 1, 0, ⟨sw + tf.charWidth ch, line.advance.y⟩, true⟩
          (sw + tf.charWidth ch) fw r hno' hw' hh hwide' rfl (Nat.le_refl _) hr
        have hflag : r.insert_hyphen_before_line_break = true := by
          by_cases hloc : ∃ j, j < rest.length ∧ sw + tf.charWidth ch +
              tf.text_width (List.take j rest) + tf.charWidth (rest.getD j 0) +
              hf.charWidth 45 ≤ mw
          · exact IH3 hloc
          · rcases IH4 hloc with hrl | h0
            · rw [hrl]
            · exact absurd h0 hrest_ne
        have hrlen : i < r.length := by
          by_cases hloc : ∃ j, j < rest.length ∧ sw + tf.charWidth ch +
              tf.text_width (List.take j rest) + tf.charWidth (rest.getD j 0) +
              hf.charWidth 45 ≤ mw
          · obtain ⟨j', hj', hfj'⟩ := hloc
            have := (IH2 j' hj').1 hfj'
            omega
          · rcases IH4 hloc with hrl | h0
            · rw [hrl]
              exact Nat.lt_succ_self i
            · exact absurd h0 hrest_ne
        refine ⟨IH1, ?_, fun _ => hflag, ?_⟩
        · intro j hj
          match j with
          | 0 =>
            simp only [List.take_zero, Font.text_width_nil, List.getD_cons_zero]
            constructor
            · intro _
              simpa using hrlen
            · intro _
              omega
          | j + 1 =>
            rw [ht j]
            have := IH2 j (by simpa using hj)
            constructor
            · intro hfj
              have := this.1 hfj
              omega
            · intro hlt
              exact this.2 (by omega)
        · intro hnex
          exfalso
          apply hnex
          refine ⟨0, by simp, ?_⟩
          simp only [List.take_zero, Font.text_width_nil, List.getD_cons_zero]
          omega
      · -- char + hyphen no longer fits: the breakpoint is left unchanged
        rw [if_neg (by simp [hfit0] :
          ¬((sw + tf.charWidth ch + hf.charWidth 45 ≤ mw
            && (LineBreaking.BreakWordsAndInsertHyphen ==
                LineBreaking.BreakWordsAndInsertHyphen || !fw)) = true))] at hr
        obtain ⟨IH1, IH2, IH3, IH4⟩ := ih (i + 1) line (sw + tf.charWidth ch) fw r
          hno' hw' hh hwide' hskip (by omega) hr
        have hlocF : ¬∃ j, j < rest.length ∧ sw + tf.charWidth ch +
            tf.text_width (List.take j rest) + tf.charWidth (rest.getD j 0) +
            hf.charWidth 45 ≤ mw := by
          rintro ⟨j', hj', hfj'⟩
          have h1 := htwj j'
          have h2 := hwj j' hj'
          omega
        have hrline : r = line := by
          rcases IH4 hlocF with hrl | h0
          · exact hrl
          · exact absurd h0 hrest_ne
        refine ⟨IH1, ?_, ?_, fun _ => Or.inl hrline⟩
        · intro j hj
          match j with
          | 0 =>
            simp only [List.take_zero, Font.text_width_nil, List.getD_cons_zero]
            constructor
            · intro hfj
              exfalso
              omega
            · intro hlt
              exfalso
              rw [hrline] at hlt
              omega
          | j + 1 =>
            rw [ht j]
            have := IH2 j (by simpa using hj)
            constructor
            · intro hfj
              have := this.1 hfj
              omega
            · intro hlt
              exact this.2 (by omega)
        · rintro ⟨j, hj, hfj⟩
          match j with
          | 0 =>
            exfalso
            simp only [List.take_zero, Font.text_width_nil, List.getD_cons_zero] at hfj
            omega
          | j + 1 =>
            exact IH3 ⟨j, by simpa using hj, (ht j).1 hfj⟩

/-- C4: under `BreakWordsAndInsertHyphen`, for a single whitespace-free
word (with nonnegative per-byte widths and a nonnegative hyphen width)
wider than `max_width` whose first character still fits together with the
hyphen glyph, `fit_horizontally` returns a mid-word break with
`insert_hyphen_before_line_break = true` and `skip_next_chars = 0`, and its
`fitted_length` is exactly one past the last position at which the
accumulated width plus that character's width plus the hyphen glyph's width
still fits within `max_width`: position `j` is inside the fitted span iff
`width(text[0..j]) + width(text[j]) + hyphen_width ≤ max_width`. -/
theorem fit_horizontally_hyphen_word (text : List Nat) (mw : Int) (tf hf : Font)
    (hno : ∀ c ∈ text, is_whitespace c = false)
    (hw : ∀ c ∈ text, 0 ≤ tf.charWidth c)
    (hh : 0 ≤ hf.charWidth 45)
    (hwide : mw < tf.text_width text)
    (hne : text ≠ [])
    (hfirst : tf.charWidth (text.getD 0 0) + hf.charWidth 45 ≤ mw) :
    (Span.fit_horizontally text mw tf hf
        .BreakWordsAndInsertHyphen).insert_hyphen_before_line_break = true ∧
      (Span.fit_horizontally text mw tf hf
        .BreakWordsAndInsertHyphen).skip_next_chars = 0 ∧
      ∀ j, j < text.length →
        (tf.text_width (text.take j) + tf.charWidth (text.getD j 0) +
            hf.charWidth 45 ≤ mw ↔
          j < (Span.fit_horizontally text mw tf hf
            .BreakWordsAndInsertHyphen).length) := by
  obtain ⟨IH1, IH2, IH3, _⟩ := fitFrom_hyphen_word text.length mw tf hf text 0
    ⟨0, 0, ⟨0, tf.lineHeight⟩, false⟩ 0 false
    (Span.fit_horizontally text mw tf hf .BreakWordsAndInsertHyphen)
    hno hw hh (by omega) rfl (Nat.le_refl _) rfl
  have hlen0 : 0 < text.length := by
    cases text with
    | nil => exact absurd rfl hne
    | cons c cs => simp
  refine ⟨IH3 ⟨0, hlen0, by simpa [Font.text_width_nil] using hfirst⟩, IH1, ?_⟩
  intro j hj
  have := IH2 j hj
  constructor
  · intro hfj
    have := this.1 (by omega)
    omega
  · intro hlt
    have := this.2 (by omega)
    omega

/-- C4 witness: the word `"abcd"` (each byte one unit wide, hyphen one
unit) in a budget of 2 breaks after the first character with a hyphen. -/
theorem fit_horizontally_hyphen_word_witness :
    (Span.fit_horizontally [97, 98, 99, 100] 2 unitFont unitFont
        .BreakWordsAndInsertHyphen).insert_hyphen_before_line_break = true ∧
      (Span.fit_horizontally [97, 98, 99, 100] 2 unitFont unitFont
        .BreakWordsAndInsertHyphen).skip_next_chars = 0 ∧
      ∀ j, j < ([97, 98, 99, 100] : List Nat).length →
        (unitFont.text_width (([97, 98, 99, 100] : List Nat).take j) +
            unitFont.charWidth (([97, 98, 99, 100] : List Nat).getD j 0) +
            unitFont.charWidth 45 ≤ 2 ↔
          j < (Span.fit_horizontally [97, 98, 99, 100] 2 unitFont unitFont
            .BreakWordsAndInsertHyphen).length) :=
  fit_horizontally_hyphen_word [97, 98, 99, 100] 2 unitFont unitFont
    (by decide) (by decide) (by decide) (by decide) (by decide) (by decide)

/-! ### C9 -/

/-- With a positive line height, every span fit on a nonempty input either
breaks the line (`advance.y > 0`) or consumes at least one byte; and the
vertical advance is never negative. -/
theorem fit_horizontally_step_facts (text : List Nat) (mw : Int) (tf hf : Font)
    (br : LineBreaking) (hlh : 1 ≤ tf.lineHeight) (hne : text ≠ []) :
    0 ≤ (Span.fit_horizontally text mw tf hf br).advance.y ∧
      (0 < (Span.fit_horizontally text mw tf hf br).advance.y ∨
        1 ≤ (Span.fit_horizontally text mw tf hf br).length +
          (Span.fit_horizontally text mw tf hf br).skip_next_chars) := by
  have htd : 0 ≤ tf.lineHeight.tdiv 2 := Int.tdiv_nonneg (by omega) (by omega)
  have hlen : 1 ≤ text.length := List.length_pos.2 hne
  rcases fitFrom_advance_shape text.length mw tf hf br text 0
      ⟨0, 0, ⟨0, tf.lineHeight⟩, false⟩ 0 false
      (Span.fit_horizontally text mw tf hf br) rfl rfl with
    ⟨hy, hl, hs⟩ | hy | ⟨hy, hs⟩
  · exact ⟨by omega, Or.inr (by omega)⟩
  · exact ⟨by omega, Or.inl (by omega)⟩
  · exact ⟨by omega, Or.inr (by omega)⟩

/-- Fuel sufficiency for the text-layout loop: if the line height is
positive, fuel exceeding `remaining bytes + remaining vertical space`
always suffices — each iteration consumes a byte or at least one unit of
vertical space, or returns. -/
theorem layout_text_fuel_sufficient (st : TextStyle)
    (hlh : 1 ≤ st.text_font.lineHeight) :
    ∀ (fuel : Nat) (text : List Nat) (cursor : Point),
      text.length + (st.bounds.y1 - cursor.y).toNat < fuel →
      (st.layout_text fuel text cursor).isSome = true := by
  intro fuel
  induction fuel with
  | zero =>
    intro text cursor h
    omega
  | succ fuel ih =>
    intro text cursor h
    match text with
    | [] =>
      rw [TextStyle.layout_text]
      rfl
    | c :: rest =>
      rw [TextStyle.layout_text]
      obtain ⟨hy0, hstep⟩ := fit_horizontally_step_facts (c :: rest)
        (st.bounds.x1 - cursor.x) st.text_font st.hyphen_font st.line_breaking
        hlh (by simp)
      set sp := Span.fit_horizontally (c :: rest) (st.bounds.x1 - cursor.x)
        st.text_font st.hyphen_font st.line_breaking with hsp
      by_cases hpos : 0 < sp.advance.y
      · rw [if_pos hpos]
        by_cases hov : st.bounds.y1 < cursor.y + sp.advance.y
        · rw [if_pos (by simpa using hov)]
          by_cases hflag : sp.insert_hyphen_before_line_break = true
          · simp [hflag]
          · simp [hflag]
        · rw [if_neg (by simpa using hov)]
          have hrec := ih ((c :: rest).drop (sp.length + sp.skip_next_chars))
            ⟨st.bounds.x0, cursor.y + sp.advance.y⟩
            (by
              simp only [List.length_drop, List.length_cons]
              simp only [List.length_cons] at h
              simp only [not_lt] at hov
              omega)
          cases hres : st.layout_text fuel
              ((c :: rest).drop (sp.length + sp.skip_next_chars))
              ⟨st.bounds.x0, cursor.y + sp.advance.y⟩ with
          | none => rw [hres] at hrec; exact absurd hrec (by simp)
          | some v =>
            obtain ⟨res, p, rem, evs⟩ := v
            rfl
      · rw [if_neg hpos]
        have hprog : 1 ≤ sp.length + sp.skip_next_chars := by
          rcases hstep with h | h
          · exact absurd h hpos
          · exact h
        have hrec := ih ((c :: rest).drop (sp.length + sp.skip_next_chars))
          ⟨cursor.x + sp.advance.x, cursor.y⟩
          (by
            simp only [List.length_drop, List.length_cons]
            simp only [List.length_cons] at h
            omega)
        cases hres : st.layout_text fuel
            ((c :: rest).drop (sp.length + sp.skip_next_chars))
            ⟨cursor.x + sp.advance.x, cursor.y⟩ with
        | none => rw [hres] at hrec; exact absurd hrec (by simp)
        | some v =>
          obtain ⟨res, p, rem, evs⟩ := v
          rfl

/-- C9: `TextStyle::layout_text` terminates for every text, style and
starting cursor, provided the text font's line height is at least 1: fuel
`text.length + (bottom - cursor.y).toNat + 1` (one unit per byte consumed
or per unit of vertical space crossed, plus the final check) is enough for
the loop to return. -/
theorem layout_text_terminates (st : TextStyle) (text : List Nat) (cursor : Point)
    (hlh : 1 ≤ st.text_font.lineHeight) :
    (st.layout_text (text.length + (st.bounds.y1 - cursor.y).toNat + 1)
      text cursor).isSome = true := by
  exact layout_text_fuel_sufficient st hlh _ text cursor (by omega)

/-- C9 witness: a concrete layout run returns within the computed fuel. -/
theorem layout_text_terminates_witness :
    (({ bounds := ⟨0, 0, 100, 10⟩
        background_color := ⟨0⟩
        text_color := ⟨1⟩
        text_font := unitFont
        line_breaking := .BreakAtWhitespace
        hyphen_font := unitFont
        hyphen_color := ⟨2⟩
        page_breaking := .CutAndInsertEllipsis
        ellipsis_font := unitFont
        ellipsis_color := ⟨3⟩ } : TextStyle).layout_text
      (([97, 10] : List Nat).length + ((10 : Int) - 0).toNat + 1)
      [97, 10] ⟨0, 0⟩).isSome = true :=
  layout_text_terminates _ [97, 10] ⟨0, 0⟩ (by decide)

/-! ### C5 -/

/-- Shape of the sink trace of every `layout_text` run that returns
`OutOfBounds`: some prefix of text/hyphen events (no ellipsis, no
overflow), followed by the final iteration's text event and then exactly
one of: a hyphen then the overflow callback (the triggering span was
hyphen-flagged); an ellipsis then the overflow callback (possible only with
remaining text and the `CutAndInsertEllipsis` policy); or the overflow
callback alone (only when no text remains or the policy is `Cut`). -/
theorem layout_text_oob_shape (st : TextStyle) :
    ∀ (fuel : Nat) (text : List Nat) (cursor : Point) (p : Point) (rem : List Nat)
      (evs : List Event),
      st.layout_text fuel text cursor = some (.OutOfBounds, p, rem, evs) →
      ∃ pre last, evs = pre ++ last ∧
        (∀ e ∈ pre, e.isEllipsis = false ∧ ¬e = Event.oob) ∧
        ((∃ cur bs cur2, last = [Event.text cur bs, Event.hyphen cur2, Event.oob]) ∨
          (∃ cur bs cur2, last = [Event.text cur bs, Event.ellipsis cur2, Event.oob]
            ∧ rem ≠ [] ∧ st.page_breaking = .CutAndInsertEllipsis) ∨
          (∃ cur bs, last = [Event.text cur bs, Event.oob] ∧
            (rem = [] ∨ st.page_breaking ≠ .CutAndInsertEllipsis))) := by
  intro fuel
  induction fuel with
  | zero =>
    intro text cursor p rem evs h
    exact absurd h (by simp [TextStyle.layout_text])
  | succ fuel ih =>
    intro text cursor p rem evs h
    match text with
    | [] =>
      rw [TextStyle.layout_text] at h
      simp at h
    | c :: rest0 =>
      simp only [TextStyle.layout_text] at h
      set sp := Span.fit_horizontally (c :: rest0) (st.bounds.x1 - cursor.x)
        st.text_font st.hyphen_font st.line_breaking with hsp
      split at h
      · -- 0 < advance.y
        split at h
        · -- overflow triggered: the run ends here
          rename_i hpos hov
          simp only [Option.some.injEq, Prod.mk.injEq] at h
          obtain ⟨-, hp, hrem, hevs⟩ := h
          subst hp
          subst hrem
          subst hevs
          split
          · -- ellipsis emitted
            rename_i hcond
            obtain ⟨hne, hpol, hflag⟩ := hcond
            rw [if_neg (show ¬(sp.insert_hyphen_before_line_break = true) by
              simp [hflag])]
            exact ⟨[], [Event.text cursor ((c :: rest0).take sp.length),
              Event.ellipsis ⟨cursor.x + sp.advance.x, cursor.y⟩, Event.oob],
              by simp, by simp, Or.inr (Or.inl ⟨_, _, _, rfl, hne, hpol⟩)⟩
          · rename_i hcond
            split
            · -- hyphen-flagged break
              rename_i hflag
              exact ⟨[], [Event.text cursor ((c :: rest0).take sp.length),
                Event.hyphen ⟨cursor.x + sp.advance.x, cursor.y⟩, Event.oob],
                by simp, by simp, Or.inl ⟨_, _, _, rfl⟩⟩
            · -- bare overflow
              rename_i hflag
              refine ⟨[], [Event.text cursor ((c :: rest0).take sp.length),
                Event.oob], by simp, by simp, Or.inr (Or.inr ⟨_, _, rfl, ?_⟩)⟩
              by_cases hrem : (c :: rest0).drop (sp.length + sp.skip_next_chars) = []
              · exact Or.inl hrem
              · refine Or.inr fun hpol => ?_
                simp only [Bool.not_eq_true] at hflag
                exact hcond ⟨hrem, hpol, hflag⟩
        · -- line break that still fits: recurse
          rename_i hpos hov
          split at h
          · exact absurd h (by simp)
          · rename_i res p1 rem1 evs1 heq
            simp only [Option.some.injEq, Prod.mk.injEq] at h
            obtain ⟨hres, hp, hrem, hevs⟩ := h
            subst hres
            subst hp
            subst hrem
            obtain ⟨pre, last, hsplit, hpre, hcase⟩ := ih _ _ _ _ _ heq
            subst hsplit
            subst hevs
            split
            · rename_i hflag
              refine ⟨[Event.text cursor ((c :: rest0).take sp.length),
                Event.hyphen ⟨cursor.x + sp.advance.x, cursor.y⟩] ++ pre, last,
                by simp, ?_, hcase⟩
              intro e he
              simp only [List.mem_append, List.mem_cons,
                List.not_mem_nil, or_false] at he
              rcases he with (rfl | rfl) | he
              · exact ⟨rfl, by simp⟩
              · exact ⟨rfl, by simp⟩
              · exact hpre e he
            · rename_i hflag
              refine ⟨Event.text cursor ((c :: rest0).take sp.length) :: pre, last,
                by simp, ?_, hcase⟩
              intro e he
              simp only [List.mem_cons] at he
              rcases he with rfl | he
              · exact ⟨rfl, by simp⟩
              · exact hpre e he
      · -- same-line continuation: recurse
        rename_i hpos
        split at h
        · exact absurd h (by simp)
        · rename_i res p1 rem1 evs1 heq
          simp only [Option.some.injEq, Prod.mk.injEq] at h
          obtain ⟨hres, hp, hrem, hevs⟩ := h
          subst hres
          subst hp
          subst hrem
          obtain ⟨pre, last, hsplit, hpre, hcase⟩ := ih _ _ _ _ _ heq
          subst hsplit
          subst hevs
          refine ⟨Event.text cursor ((c :: rest0).take sp.length) :: pre, last,
            by simp, ?_, hcase⟩
          intro e he
          simp only [List.mem_cons] at he
          rcases he with rfl | he
          · exact ⟨rfl, by simp⟩
          · exact hpre e he

/-- C5 (amended): when a `layout_text` run under `CutAndInsertEllipsis`
overflows (`OutOfBounds`), there is still remaining text after the
triggering line, and that line did not end in a hyphen-flagged break (no
hyphen callback immediately precedes the overflow callback), then the
ellipsis callback is invoked exactly once, immediately before the overflow
callback. -/
theorem layout_text_ellipsis_once (st : TextStyle) (fuel : Nat) (text : List Nat)
    (cursor p : Point) (rem : List Nat) (evs : List Event)
    (hpol : st.page_breaking = .CutAndInsertEllipsis)
    (hrun : st.layout_text fuel text cursor = some (.OutOfBounds, p, rem, evs))
    (hrem : rem ≠ [])
    (hnohy : endsHyphenOob evs = false) :
    ellipsisOnceBeforeOob evs = true := by
  obtain ⟨pre, last, rfl, hpre, hcase⟩ :=
    layout_text_oob_shape st fuel text cursor p rem _ hrun
  rcases hcase with ⟨cur, bs, cur2, rfl⟩ | ⟨cur, bs, cur2, rfl, -, -⟩ |
    ⟨cur, bs, rfl, hor⟩
  · exfalso
    unfold endsHyphenOob at hnohy
    rw [List.reverse_append] at hnohy
    simp at hnohy
  · unfold ellipsisOnceBeforeOob
    rw [List.reverse_append]
    simp only [List.reverse_cons, List.reverse_nil, List.nil_append,
      List.cons_append, List.append_assoc]
    rw [List.all_eq_true]
    intro e he
    simp only [List.mem_cons, List.mem_reverse] at he
    rcases he with rfl | he
    · rfl
    · have h1 := (hpre e he).1
      simp [h1]
  · rcases hor with h | h
    · exact absurd h hrem
    · exact absurd hpol h

/-- C5 counterexample to the claim as stated: laying out `"a\n"` in a box
too short for even one line, with `CutAndInsertEllipsis`, overflows on a
line that did not end in a hyphen-flagged break, yet the ellipsis callback
is never invoked (the LF consumed the whole text, so no text remains at the
overflow point — the condition the claim is missing). -/
theorem layout_text_ellipsis_once_cex :
    sampleStyle.layout_text 5 [97, 10] ⟨0, 0⟩ =
        some (.OutOfBounds, ⟨1, 0⟩, [], [.text ⟨0, 0⟩ [97], .oob]) ∧
      endsHyphenOob [.text ⟨0, 0⟩ [97], .oob] = false ∧
      ellipsisOnceBeforeOob [.text ⟨0, 0⟩ [97], .oob] = false := by decide

/-- C5 witness: a run that overflows with text remaining and no hyphen gets
the ellipsis exactly once, right before the overflow callback. -/
theorem layout_text_ellipsis_once_witness :
    ellipsisOnceBeforeOob [Event.text ⟨0, 0⟩ [97, 97], Event.text ⟨0, 16⟩ [98, 98],
      Event.ellipsis ⟨2, 16⟩, Event.oob] = true :=
  layout_text_ellipsis_once narrowStyle 5 [97, 97, 32, 98, 98, 32, 99, 99]
    ⟨0, 0⟩ ⟨2, 16⟩ [99, 99] _ (by decide) (by decide) (by decide) (by decide)

/-! ### C6 -/

/-- At an opening brace with no closing brace anywhere after it,
`Tokenizer::next` ends the stream. -/
theorem Tokenizer.next_unterminated {input : List Nat} {pos : Nat}
    (h123 : (input.drop pos).head? = some 123)
    (hno : 125 ∉ input.drop (pos + 1)) :
    Tokenizer.next ⟨input, pos⟩ = none := by
  unfold Tokenizer.next
  split
  · rfl
  · rename_i c rest hd
    have hc : c = 123 := by
      rw [hd] at h123
      simpa using h123
    have hrest : rest = input.drop (pos + 1) := by
      have ht := List.tail_drop input pos
      rw [hd] at ht
      simpa using ht
    rw [if_pos hc]
    have hs : scanFor 125 rest (pos + 1) = none := by
      cases hsf : scanFor 125 rest (pos + 1) with
      | none => rfl
      | some q =>
        exfalso
        obtain ⟨-, hlt, hfound, -⟩ := scanFor_some_spec hsf
        have : (125 : Nat) ∈ rest := List.mem_iff_getElem?.2 ⟨q - (pos + 1), hfound⟩
        rw [hrest] at this
        exact hno this
    rw [hs]

/-- C6: if the format buffer ends before a closing brace is found for an
opened brace (position `pos` holds `{` and no `}` occurs after it), the
token stream from that position is empty — no token is emitted for the
unterminated argument or for anything after the `{`; in particular
tokenizing `"abc{unterminated"` yields exactly `[Literal "abc"]`. -/
theorem tokenizer_unterminated (fuel : Nat) (input : List Nat) (pos : Nat)
    (h123 : (input.drop pos).head? = some 123)
    (hno : 125 ∉ input.drop (pos + 1)) :
    Tokenizer.tokensFuel fuel ⟨input, pos⟩ = [] ∧
      tokenize [97, 98, 99, 123, 117, 110, 116, 101, 114, 109, 105, 110, 97,
        116, 101, 100] = [.Literal [97, 98, 99]] := by
  constructor
  · cases fuel with
    | zero => rfl
    | succ fuel =>
      rw [Tokenizer.tokensFuel, Tokenizer.next_unterminated h123 hno]
  · decide

/-- C6 witness: position 1 of `"a{b"` starts an unterminated argument; the
stream from there is empty, and the concrete example tokenizes to a single
literal. -/
theorem tokenizer_unterminated_witness :
    Tokenizer.tokensFuel 4 ⟨[97, 123, 98], 1⟩ = [] ∧
      tokenize [97, 98, 99, 123, 117, 110, 116, 101, 114, 109, 105, 110, 97,
        116, 101, 100] = [.Literal [97, 98, 99]] :=
  tokenizer_unterminated 4 [97, 123, 98] 1 (by decide) (by decide)

/-! ### C7 -/

/-- Every literal token produced by one `Tokenizer::next` step is nonempty
and free of opening braces. -/
theorem Tokenizer.next_literal {input : List Nat} {pos : Nat} {s : List Nat}
    {t' : Tokenizer}
    (h : Tokenizer.next ⟨input, pos⟩ = some (.Literal s, t')) :
    s ≠ [] ∧ 123 ∉ s := by
  unfold Tokenizer.next at h
  dsimp only at h
  split at h
  · simp at h
  · rename_i c rest hd
    split at h
    · split at h
      · simp at h
      · simp at h
    · rename_i hc
      split at h
      · rename_i opn hs
        obtain ⟨hle, hlt, -, hbefore⟩ := scanFor_some_spec hs
        simp only [Option.some.injEq, Prod.mk.injEq, Token.Literal.injEq] at h
        obtain ⟨rfl, -⟩ := h
        rw [hd]
        have hk : opn - pos = (opn - (pos + 1)) + 1 := by omega
        rw [hk, List.take_succ_cons]
        refine ⟨by simp, ?_⟩
        simp only [List.mem_cons, not_or]
        refine ⟨fun hcc => hc hcc.symm, fun hmem => ?_⟩
        obtain ⟨r, hr⟩ := List.mem_iff_getElem?.1 hmem
        have hrlt : r < opn - (pos + 1) := by
          by_contra hge
          rw [List.getElem?_eq_none (by
            have := List.length_take_le (opn - (pos + 1)) rest
            omega)] at hr
          exact absurd hr (by simp)
        rw [List.getElem?_take_of_lt hrlt] at hr
        exact absurd hr (hbefore r hrlt)
      · rename_i hs
        simp only [Option.some.injEq, Prod.mk.injEq, Token.Literal.injEq] at h
        obtain ⟨rfl, -⟩ := h
        rw [hd]
        refine ⟨by simp, ?_⟩
        simp only [List.mem_cons, not_or]
        exact ⟨fun hcc => hc hcc.symm, scanFor_none hs⟩

/-- Literal tokens anywhere in the fueled token stream are nonempty and
contain no opening brace. -/
theorem tokensFuel_literal (fuel : Nat) :
    ∀ (input : List Nat) (pos : Nat) (s : List Nat),
      Token.Literal s ∈ Tokenizer.tokensFuel fuel ⟨input, pos⟩ →
      s ≠ [] ∧ 123 ∉ s := by
  induction fuel with
  | zero =>
    intro input pos s hmem
    simp [Tokenizer.tokensFuel] at hmem
  | succ fuel ih =>
    intro input pos s hmem
    rw [Tokenizer.tokensFuel] at hmem
    cases hnext : Tokenizer.next ⟨input, pos⟩ with
    | none =>
      rw [hnext] at hmem
      simp at hmem
    | some v =>
      obtain ⟨tok, t'⟩ := v
      rw [hnext] at hmem
      simp only [List.mem_cons] at hmem
      rcases hmem with heq | htail
      · subst heq
        exact Tokenizer.next_literal hnext
      · obtain ⟨ti, tp⟩ := t'
        exact ih ti tp s htail

/-- C7 (amended): every `Literal` token the tokenizer emits is non-empty
and never contains an opening brace byte `{` (123).  (Closing braces `}`
outside an argument pass through into literals, which is what the
counterexample shows.) -/
theorem tokenize_literal_tokens (input : List Nat) (s : List Nat)
    (hmem : Token.Literal s ∈ tokenize input) :
    s ≠ [] ∧ 123 ∉ s :=
  tokensFuel_literal _ input 0 s hmem

/-- C7 witness: the literal token of `"a"` is nonempty and brace-free. -/
theorem tokenize_literal_tokens_witness :
    ([97] : List Nat) ≠ [] ∧ 123 ∉ ([97] : List Nat) :=
  tokenize_literal_tokens [97] [97] (by decide)

/-- C7 counterexample to the claim as stated: tokenizing `"a}b"` yields one
literal that does contain the closing-brace byte `}` (125) — the tokenizer
only treats `}` specially inside an argument. -/
theorem tokenize_literal_tokens_cex :
    tokenize [97, 125, 98] = [.Literal [97, 125, 98]] ∧
      (125 : Nat) ∈ ([97, 125, 98] : List Nat) := by decide

/-! ### C8 -/

/-- C8: processing a `SetColor` operation updates only the style's current
text color, and processing a `SetFont` operation updates only the current
text font; in both cases the cursor is unchanged, no sink callback is made
(the event trace is empty), the run is `Fitting`, and every other style
field is unchanged. -/
theorem layout_ops_set_color_font (fuel : Nat) (st : TextStyle) (c : Color)
    (f : Font) (cursor : Point) :
    (TextStyle.layout_ops fuel st [Op.SetColor c] cursor =
        some (.Fitting, { st with text_color := c }, cursor, []) ∧
      ({ st with text_color := c } : TextStyle).bounds = st.bounds ∧
      ({ st with text_color := c } : TextStyle).background_color = st.background_color ∧
      ({ st with text_color := c } : TextStyle).text_font = st.text_font ∧
      ({ st with text_color := c } : TextStyle).line_breaking = st.line_breaking ∧
      ({ st with text_color := c } : TextStyle).hyphen_font = st.hyphen_font ∧
      ({ st with text_color := c } : TextStyle).hyphen_color = st.hyphen_color ∧
      ({ st with text_color := c } : TextStyle).page_breaking = st.page_breaking ∧
      ({ st with text_color := c } : TextStyle).ellipsis_font = st.ellipsis_font ∧
      ({ st with text_color := c } : TextStyle).ellipsis_color = st.ellipsis_color ∧
      ({ st with text_color := c } : TextStyle).text_color = c) ∧
    (TextStyle.layout_ops fuel st [Op.SetFont f] cursor =
        some (.Fitting, { st with text_font := f }, cursor, []) ∧
      ({ st with text_font := f } : TextStyle).bounds = st.bounds ∧
      ({ st with text_font := f } : TextStyle).background_color = st.background_color ∧
      ({ st with text_font := f } : TextStyle).text_color = st.text_color ∧
      ({ st with text_font := f } : TextStyle).line_breaking = st.line_breaking ∧
      ({ st with text_font := f } : TextStyle).hyphen_font = st.hyphen_font ∧
      ({ st with text_font := f } : TextStyle).hyphen_color = st.hyphen_color ∧
      ({ st with text_font := f } : TextStyle).page_breaking = st.page_breaking ∧
      ({ st with text_font := f } : TextStyle).ellipsis_font = st.ellipsis_font ∧
      ({ st with text_font := f } : TextStyle).ellipsis_color = st.ellipsis_color ∧
      ({ st with text_font := f } : TextStyle).text_font = f) :=
  ⟨⟨rfl, rfl, rfl, rfl, rfl, rfl, rfl, rfl, rfl, rfl, rfl⟩,
    ⟨rfl, rfl, rfl, rfl, rfl, rfl, rfl, rfl, rfl, rfl, rfl⟩⟩

/-! ### C10 -/

theorem renderTokens_nil : renderTokens [] = [] := rfl

theorem renderTokens_cons (t : Token) (ts : List Token) :
    renderTokens (t :: ts) = renderToken t ++ renderTokens ts := by
  simp [renderTokens]

/-- One `Tokenizer::next` step is loss-free: rendering the token it
produced and appending the rest of the buffer (from the new position)
reconstructs the buffer from the old position. -/
theorem Tokenizer.next_render {input : List Nat} {pos : Nat} {tok : Token}
    {t' : Tokenizer}
    (h : Tokenizer.next ⟨input, pos⟩ = some (tok, t')) :
    renderToken tok ++ input.drop t'.pos = input.drop pos := by
  unfold Tokenizer.next at h
  dsimp only at h
  split at h
  · simp at h
  · rename_i c rest hd
    have hrest : rest = input.drop (pos + 1) := by
      have ht := List.tail_drop input pos
      rw [hd] at ht
      simpa using ht
    split at h
    · rename_i hc
      split at h
      · rename_i close hs
        obtain ⟨hle, hlt, hfound, -⟩ := scanFor_some_spec hs
        simp only [Option.some.injEq, Prod.mk.injEq] at h
        obtain ⟨rfl, rfl⟩ := h
        rw [renderToken]
        rw [hd, hc]
        dsimp only
        rw [List.cons_append, List.append_assoc]
        have hklt : close - (pos + 1) < rest.length := hlt
        have hget : rest[close - (pos + 1)] = 125 := by
          have := List.getElem?_eq_getElem hklt
          rw [this] at hfound
          exact Option.some.inj hfound
        have hdropk : rest.drop (close - (pos + 1)) =
            125 :: input.drop (close + 1) := by
          rw [List.drop_eq_getElem_cons hklt, hget, hrest, List.drop_drop]
          congr 2
          omega
        congr 1
        rw [← hrest]
        conv_rhs => rw [← List.take_append_drop (close - (pos + 1)) rest]
        congr 1
        rw [hdropk]
        simp
      · simp at h
    · rename_i hc
      split at h
      · rename_i opn hs
        obtain ⟨hle, hlt, -, -⟩ := scanFor_some_spec hs
        simp only [Option.some.injEq, Prod.mk.injEq] at h
        obtain ⟨rfl, rfl⟩ := h
        rw [renderToken]
        dsimp only
        have hdrop : input.drop opn = (input.drop pos).drop (opn - pos) := by
          rw [List.drop_drop]
          congr 1
          omega
        rw [hdrop, List.take_append_drop]
      · simp only [Option.some.injEq, Prod.mk.injEq] at h
        obtain ⟨rfl, rfl⟩ := h
        rw [renderToken]
        dsimp only
        rw [List.drop_length, List.append_nil]

/-- Rendering the fueled token stream from any position of a well-formed
buffer (every opening brace is eventually followed by a closing brace)
reconstructs the buffer from that position. -/
theorem tokensFuel_render (fuel : Nat) :
    ∀ (input : List Nat) (pos : Nat),
      input.length - pos < fuel →
      (∀ k, k < input.length → (input.drop k).head? = some 123 →
        125 ∈ input.drop (k + 1)) →
      renderTokens (Tokenizer.tokensFuel fuel ⟨input, pos⟩) = input.drop pos := by
  induction fuel with
  | zero =>
    intro input pos hb hwf
    omega
  | succ fuel ih =>
    intro input pos hb hwf
    rw [Tokenizer.tokensFuel]
    cases hnext : Tokenizer.next ⟨input, pos⟩ with
    | none =>
      unfold Tokenizer.next at hnext
      dsimp only at hnext
      split at hnext
      · rename_i hd
        rw [hd]
        rfl
      · rename_i c rest hd
        exfalso
        have hpos : pos < input.length := by
          by_contra hge
          rw [List.drop_eq_nil_of_le (by omega)] at hd
          exact absurd hd (by simp)
        have hrest : rest = input.drop (pos + 1) := by
          have ht := List.tail_drop input pos
          rw [hd] at ht
          simpa using ht
        split at hnext
        · rename_i hc
          split at hnext
          · simp at hnext
          · rename_i hs
            have h125 := hwf pos hpos (by rw [hd, hc]; rfl)
            rw [← hrest] at h125
            exact absurd h125 (scanFor_none hs)
        · split at hnext <;> simp at hnext
    | some v =>
      obtain ⟨tok, t'⟩ := v
      obtain ⟨hin, hlt, hle⟩ := Tokenizer.next_progress hnext
      obtain ⟨ti, tp⟩ := t'
      dsimp only at hin hlt hle
      rw [hin] at hnext ⊢
      show renderTokens (tok :: Tokenizer.tokensFuel fuel ⟨input, tp⟩) =
        input.drop pos
      rw [renderTokens_cons]
      rw [ih input tp (by omega) hwf]
      exact Tokenizer.next_render hnext

/-- C10: for every format string in which every opening brace `{` is
eventually followed by a closing brace `}`, concatenating the tokenizer's
output in order — literal payloads verbatim, argument payloads wrapped back
into `{`/`}` — reconstructs the original input byte string exactly. -/
theorem tokenize_roundtrip (input : List Nat)
    (hwf : ∀ k, k < input.length → (input.drop k).head? = some 123 →
      125 ∈ input.drop (k + 1)) :
    renderTokens (tokenize input) = input := by
  have h := tokensFuel_render (input.length + 1) input 0 (by omega) hwf
  simpa using h

/-- C10 witness: the round trip on `"a{b}c"`. -/
theorem tokenize_roundtrip_witness :
    renderTokens (tokenize [97, 123, 98, 125, 99]) = [97, 123, 98, 125, 99] :=
  tokenize_roundtrip [97, 123, 98, 125, 99] (by decide)
